import Mathlib

/-!
Verification of the core of `app.py` (BLiP unique-users dashboard).

The development shallowly embeds the algorithmic core of the script:
  * `business_bucket`          — business-hours classification of an hour,
  * `safe_json` / `extract_identity` — defensive identity extraction from a
    semi-structured contact field (Python values are modelled by `PyVal`,
    `json.loads` by an executable JSON parser, the regex fallback by a
    direct scanner for the pattern used in the source),
  * `fetch_events`             — the paginated fetch loop with bounded
    exponential-backoff retry (the HTTP server is modelled as a function
    from request number to response; exceptions that the Python code lets
    escape are modelled by `Except.error`),
  * `preprocess_and_unique`    — timestamp normalisation with the
    storageDate→eventDate fallback, identity assignment with the `from`
    fallback, business bucketing, and first-contact deduplication
    (pandas `sort_values` on a tz-aware datetime column compares the
    underlying UTC instant; its default `kind='quicksort'` is documented
    as not stable, so the pipeline is parameterized by any sorting
    function satisfying the documented contract `sortValuesSpec` — sorted
    output that permutes the rows — with a stable sort `isort` and an
    anti-stable sort `isortA` as two admissible behaviours; timestamps are
    minutes since the epoch, timezones are modelled by an arbitrary
    instant→offset function),
  * `summarize`                — the Inside/Outside summary with
    percentages rounded half-to-even at two decimals, plus the weekly /
    weekday / hourly roll-ups.

Machine floats of the source (`base_sleep = 0.8`, percentage arithmetic)
are modelled by the rational numbers they denote in the source text.
-/

namespace DashCore

/-! ### Characters used by the parsers (kept out of string literals) -/

def chQ : Char := Char.ofNat 34    -- double quote
def chA : Char := Char.ofNat 39    -- apostrophe
def chLB : Char := Char.ofNat 123  -- left brace
def chRB : Char := Char.ofNat 125  -- right brace
def chLS : Char := Char.ofNat 91   -- left square bracket
def chRS : Char := Char.ofNat 93   -- right square bracket
def chBS : Char := Char.ofNat 92   -- backslash

/-! ### Python values

`PyVal` models the Python values that can reach `safe_json` /
`extract_identity`: dicts, strings, numbers, booleans, `None`, lists, and
an opaque constructor for anything else (carrying its `str()` rendering,
e.g. `pother "nan"` for a float NaN). -/

inductive PyVal where
  | pdict : List (String × PyVal) → PyVal
  | parr : List PyVal → PyVal
  | pstr : String → PyVal
  | pnum : ℚ → PyVal
  | pbool : Bool → PyVal
  | pnull : PyVal
  | pother : String → PyVal

/-- Python `dict.get`: duplicate keys keep the last binding, as in a dict
built by insertion order. -/
def pyGet (entries : List (String × PyVal)) (k : String) : Option PyVal :=
  entries.reverse.lookup k

/-! ### A model of `json.loads` (strict JSON), fuel-recursive -/

def hexVal (c : Char) : Option ℕ :=
  if c.isDigit then some (c.toNat - 48)
  else if 97 ≤ c.toNat ∧ c.toNat ≤ 102 then some (c.toNat - 87)
  else if 65 ≤ c.toNat ∧ c.toNat ≤ 70 then some (c.toNat - 55)
  else none

def jsonWsChar (c : Char) : Bool :=
  c = ' ' ∨ c = Char.ofNat 9 ∨ c = Char.ofNat 10 ∨ c = Char.ofNat 13

def jpWs (cs : List Char) : List Char := cs.dropWhile jsonWsChar

/-- Body of a JSON string, after the opening quote. Rejects raw control
characters, handles the JSON escapes (surrogate pairs are not recombined,
which no claim depends on). -/
def jpStrBody : ℕ → List Char → Option (String × List Char)
  | 0, _ => none
  | _ + 1, [] => none
  | f + 1, c :: cs =>
    if c = chQ then some ("", cs)
    else if c = chBS then
      match cs with
      | [] => none
      | e :: cs2 =>
        let dec : Option (Char × List Char) :=
          if e = chQ then some (chQ, cs2)
          else if e = chBS then some (chBS, cs2)
          else if e = Char.ofNat 47 then some (Char.ofNat 47, cs2)
          else if e = 'b' then some (Char.ofNat 8, cs2)
          else if e = 'f' then some (Char.ofNat 12, cs2)
          else if e = 'n' then some (Char.ofNat 10, cs2)
          else if e = 'r' then some (Char.ofNat 13, cs2)
          else if e = 't' then some (Char.ofNat 9, cs2)
          else if e = 'u' then
            match cs2 with
            | a :: b :: c2 :: d :: cs3 =>
              match hexVal a, hexVal b, hexVal c2, hexVal d with
              | some ha, some hb, some hc, some hd =>
                some (Char.ofNat (((ha * 16 + hb) * 16 + hc) * 16 + hd), cs3)
              | _, _, _, _ => none
            | _ => none
          else none
        match dec with
        | none => none
        | some (ch, cs3) =>
          (jpStrBody f cs3).map (fun p => (String.mk (ch :: p.1.data), p.2))
    else if c.toNat < 32 then none
    else (jpStrBody f cs).map (fun p => (String.mk (c :: p.1.data), p.2))

def digitsVal (ds : List Char) : ℕ :=
  ds.foldl (fun a c => a * 10 + (c.toNat - 48)) 0

/-- JSON number grammar `-?(0|[1-9][0-9]*)(\.[0-9]+)?([eE][+-]?[0-9]+)?`. -/
def jpNumber (cs : List Char) : Option (ℚ × List Char) :=
  let (neg, cs1) := match cs with
    | '-' :: r => (true, r)
    | _ => (false, cs)
  let ip := cs1.takeWhile Char.isDigit
  let cs2 := cs1.drop ip.length
  if ip.isEmpty then none
  else if 1 < ip.length ∧ ip.headD '0' = '0' then none
  else
    let (fracNum, fracDen, cs3) : ℚ × ℚ × List Char :=
      match cs2 with
      | '.' :: r =>
        let fd := r.takeWhile Char.isDigit
        if fd.isEmpty then ((0 : ℚ), (0 : ℚ), cs2)
        else ((digitsVal fd : ℚ), ((10 : ℚ) ^ fd.length), r.drop fd.length)
      | _ => ((0 : ℚ), (1 : ℚ), cs2)
    if fracDen = 0 then none
    else
      let base : ℚ := (if neg then -1 else 1) * ((digitsVal ip : ℚ) + fracNum / fracDen)
      match cs3 with
      | e :: r =>
        if e = 'e' ∨ e = 'E' then
          let (eneg, r1) := match r with
            | '-' :: r2 => (true, r2)
            | '+' :: r2 => (false, r2)
            | _ => (false, r)
          let ed := r1.takeWhile Char.isDigit
          if ed.isEmpty then none
          else
            let m : ℚ := (10 : ℚ) ^ digitsVal ed
            some ((if eneg then base / m else base * m), r1.drop ed.length)
        else some (base, cs3)
      | [] => some (base, cs3)

mutual

def jpValue : ℕ → List Char → Option (PyVal × List Char)
  | 0, _ => none
  | f + 1, cs =>
    match jpWs cs with
    | [] => none
    | c :: rest =>
      if c = chQ then (jpStrBody f rest).map (fun p => (PyVal.pstr p.1, p.2))
      else if c = chLB then jpObj f (jpWs rest) []
      else if c = chLS then jpArr f (jpWs rest) []
      else if c = 't' then
        match rest with
        | 'r' :: 'u' :: 'e' :: r2 => some (PyVal.pbool true, r2)
        | _ => none
      else if c = 'f' then
        match rest with
        | 'a' :: 'l' :: 's' :: 'e' :: r2 => some (PyVal.pbool false, r2)
        | _ => none
      else if c = 'n' then
        match rest with
        | 'u' :: 'l' :: 'l' :: r2 => some (PyVal.pnull, r2)
        | _ => none
      else (jpNumber (c :: rest)).map (fun p => (PyVal.pnum p.1, p.2))

/-- Object members, entered just after the opening brace (and after each
comma). A closing brace is accepted only for the empty object or right
after a member, so trailing commas are rejected as in strict JSON. -/
def jpObj : ℕ → List Char → List (String × PyVal) → Option (PyVal × List Char)
  | 0, _, _ => none
  | f + 1, cs, acc =>
    match cs with
    | [] => none
    | c :: rest =>
      if c = chRB then (if acc.isEmpty then some (PyVal.pdict [], rest) else none)
      else if c = chQ then
        match jpStrBody f rest with
        | none => none
        | some (k, cs2) =>
          match jpWs cs2 with
          | ':' :: cs3 =>
            match jpValue f cs3 with
            | none => none
            | some (v, cs4) =>
              match jpWs cs4 with
              | ',' :: cs5 => jpObj f (jpWs cs5) (acc ++ [(k, v)])
              | c2 :: cs5 =>
                if c2 = chRB then some (PyVal.pdict (acc ++ [(k, v)]), cs5) else none
              | [] => none
          | _ => none
      else none

def jpArr : ℕ → List Char → List PyVal → Option (PyVal × List Char)
  | 0, _, _ => none
  | f + 1, cs, acc =>
    match cs with
    | [] => none
    | c :: _ =>
      if c = chRS ∧ acc.isEmpty then some (PyVal.parr [], cs.tail)
      else
        match jpValue f cs with
        | none => none
        | some (v, cs2) =>
          match jpWs cs2 with
          | ',' :: cs3 => jpArr f cs3 (acc ++ [v])
          | c2 :: cs3 =>
            if c2 = chRS then some (PyVal.parr (acc ++ [v]), cs3) else none
          | [] => none

end

/-- Model of `json.loads`: parse one JSON value and require that only
whitespace remains. The fuel `length + 2` is enough because every level of
nesting consumes at least one character. -/
def jsonLoads (cs : List Char) : Option PyVal :=
  match jpValue (cs.length + 2) cs with
  | some (v, rest) => if (jpWs rest).isEmpty then some v else none
  | none => none

/-- Python `str.strip` whitespace (ASCII; unicode spaces are not
modelled). -/
def pyWsChar (c : Char) : Bool :=
  c = ' ' ∨ c = Char.ofNat 9 ∨ c = Char.ofNat 10 ∨ c = Char.ofNat 13 ∨
    c = Char.ofNat 11 ∨ c = Char.ofNat 12

def pyStrip (cs : List Char) : List Char :=
  ((cs.dropWhile pyWsChar).reverse.dropWhile pyWsChar).reverse

/-! ### `str()` rendering, used by the regex fallback -/

mutual

/-- Python `repr`. String escaping inside `repr` of a str is not modelled
(no claim exercises it); dicts, lists, numbers, booleans and `None` render
as in CPython. -/
def pyRepr : PyVal → String
  | PyVal.pdict entries => String.mk [chLB] ++ pyReprEntries entries ++ String.mk [chRB]
  | PyVal.parr vs => String.mk [chLS] ++ pyReprList vs ++ String.mk [chRS]
  | PyVal.pstr s => String.mk [chA] ++ s ++ String.mk [chA]
  | PyVal.pnum q => if q.den = 1 then toString q.num else toString q.num ++ "/" ++ toString q.den
  | PyVal.pbool b => if b then "True" else "False"
  | PyVal.pnull => "None"
  | PyVal.pother s => s

def pyReprEntries : List (String × PyVal) → String
  | [] => ""
  | (k, v) :: rest =>
    String.mk [chA] ++ k ++ String.mk [chA] ++ ": " ++ pyRepr v ++
      (if rest.isEmpty then "" else ", ") ++ pyReprEntries rest

def pyReprList : List PyVal → String
  | [] => ""
  | v :: rest => pyRepr v ++ (if rest.isEmpty then "" else ", ") ++ pyReprList rest

end

/-- Python `str()`: the identity on strings, `repr`-like elsewhere. -/
def pyStr : PyVal → String
  | PyVal.pstr s => s
  | v => pyRepr v

/-! ### `safe_json` and `extract_identity` (app.py lines 76–93) -/

/-- Model of `safe_json`. Note that on a string input it returns whatever
`json.loads` produced — not necessarily a dict — exactly as the source
does despite its `-> Dict[str, Any]` annotation. -/
def safe_json (obj : PyVal) : PyVal :=
  match obj with
  | PyVal.pdict d => PyVal.pdict d
  | PyVal.pstr s0 =>
    let cs := pyStrip s0.data
    match jsonLoads cs with
    | some v => v
    | none =>
      match jsonLoads (cs.map (fun c => if c = chA then chQ else c)) with
      | some v => v
      | none => PyVal.pdict []
  | _ => PyVal.pdict []

def rxWsChar (c : Char) : Bool :=
  c = ' ' ∨ c = Char.ofNat 9 ∨ c = Char.ofNat 10 ∨ c = Char.ofNat 13 ∨
    c = Char.ofNat 11 ∨ c = Char.ofNat 12

def rxQuote (c : Char) : Bool := c = chQ ∨ c = chA

/-- One attempted match of the source regex
`[\x22']Identity[\x22']\s*:\s*[\x22']([^\x22']+)[\x22']` at the head of
`cs`; the greedy group is deterministic because its character class
excludes the closing quotes. -/
def rxMatchAt (cs : List Char) : Option String :=
  match cs with
  | [] => none
  | q1 :: rest =>
    if rxQuote q1 then
      match rest with
      | 'I' :: 'd' :: 'e' :: 'n' :: 't' :: 'i' :: 't' :: 'y' :: q2 :: rest2 =>
        if rxQuote q2 then
          match rest2.dropWhile rxWsChar with
          | ':' :: rest4 =>
            match rest4.dropWhile rxWsChar with
            | q3 :: rest6 =>
              if rxQuote q3 then
                let grp := rest6.takeWhile (fun c => ¬ rxQuote c)
                if grp.isEmpty then none
                else
                  match rest6.drop grp.length with
                  | q4 :: _ => if rxQuote q4 then some (String.mk grp) else none
                  | [] => none
              else none
            | [] => none
          | _ => none
        else none
      | _ => none
    else none

/-- `re.search`: leftmost successful match. -/
def rxSearch : List Char → Option String
  | [] => none
  | c :: cs =>
    match rxMatchAt (c :: cs) with
    | some g => some g
    | none => rxSearch cs

/-- Model of `extract_identity`. When `safe_json` hands back a non-dict
(as it does for a string parsing to a JSON number/list/string/…), the
Python `d.get(k)` raises `AttributeError`, modelled by `Except.error`. -/
def extract_identity (contact_field : PyVal) : Except String (Option String) :=
  match safe_json contact_field with
  | PyVal.pdict entries =>
    match pyGet entries "identity" with
    | some (PyVal.pstr v) => Except.ok (some v)
    | _ =>
      match pyGet entries "Identity" with
      | some (PyVal.pstr v) => Except.ok (some v)
      | _ => Except.ok (rxSearch (pyStr contact_field).data)
  | _ => Except.error "AttributeError"

/-! ### `business_bucket` (app.py lines 67–74)

The `Option Int` argument models `int(hour)`: `none` is any value the
`int(...)` conversion rejects. -/

def business_bucket (hour : Option Int) (start_h end_h : Int) : String :=
  match hour with
  | none => "Fora"
  | some h =>
    if start_h ≤ end_h then
      if start_h ≤ h ∧ h < end_h then "Dentro" else "Fora"
    else
      if h ≥ start_h ∨ h < end_h then "Dentro" else "Fora"

/-! ### `fetch_events` (app.py lines 102–151)

The server is a function from request number to response. A response is
either a raised network error (`requests.post` raising, caught by the
`except`), or an HTTP status together with the parsed body: `none` models
`resp.json()` raising (caught), `JBody.badShape` models a successfully
parsed body that is a truthy non-dict (or holds a non-dict under
`resource`), on which the extraction line *outside* the `try` raises
`AttributeError` that propagates out of `fetch_events`, and
`JBody.items l` models every shape that yields the item list `l`
(including the defaulted-to-`[]` cases for falsy or key-missing bodies).
Sleep durations are the rationals denoted by the source floats. -/

inductive JBody (ι : Type) where
  | items : List ι → JBody ι
  | badShape : JBody ι
  deriving DecidableEq

inductive ServerResp (ι : Type) where
  | netErr : ServerResp ι
  | httpResp : ℕ → Option (JBody ι) → ServerResp ι
  deriving DecidableEq

/-- Number of items a response contributes on the success path. -/
def pageLen {ι : Type} : ServerResp ι → ℕ
  | ServerResp.httpResp _ (some (JBody.items its)) => its.length
  | _ => 0

def transientStatus (s : ℕ) : Bool :=
  s = 429 ∨ s = 500 ∨ s = 502 ∨ s = 503 ∨ s = 504

structure FetchResult (ι : Type) where
  items : List ι
  pages : List (List ι)
  sleeps : List ℚ
  requests : ℕ
  fuelOut : Bool
  deriving DecidableEq

/-- One `while True` iteration per fuel unit. The fuel given by
`fetch_events` is proven sufficient (`fetchGo_no_fuelOut`), so the
`fuelOut` marker never shows in its results. -/
def fetchGo {ι : Type} (server : ℕ → ServerResp ι) (take maxRetries cap : ℕ) (base : ℚ) :
    ℕ → ℕ → ℕ → ℕ → List ι → List (List ι) → List ℚ → Except String (FetchResult ι)
  | 0, n, _, _, acc, pages, sleeps => Except.ok ⟨acc, pages, sleeps, n, true⟩
  | fuel + 1, n, skip, attempt, acc, pages, sleeps =>
    match server n with
    | ServerResp.netErr => Except.ok ⟨acc, pages, sleeps, n + 1, false⟩
    | ServerResp.httpResp status body =>
      if status = 401 then
        -- RuntimeError raised, caught by the except: break
        Except.ok ⟨acc, pages, sleeps, n + 1, false⟩
      else if transientStatus status then
        if attempt < maxRetries then
          fetchGo server take maxRetries cap base fuel (n + 1) skip (attempt + 1)
            acc pages (sleeps ++ [base * 2 ^ attempt])
        else
          -- raise_for_status on a 4xx/5xx code raises, caught: break
          Except.ok ⟨acc, pages, sleeps, n + 1, false⟩
      else if 400 ≤ status ∧ status < 600 then
        Except.ok ⟨acc, pages, sleeps, n + 1, false⟩
      else
        match body with
        | none => Except.ok ⟨acc, pages, sleeps, n + 1, false⟩
        | some JBody.badShape => Except.error "AttributeError"
        | some (JBody.items its) =>
          let acc' := acc ++ its
          let pages' := pages ++ [its]
          if its.isEmpty ∨ cap ≤ acc'.length then
            Except.ok ⟨acc', pages', sleeps, n + 1, false⟩
          else
            fetchGo server take maxRetries cap base fuel (n + 1) (skip + take) attempt
              acc' pages' sleeps

def fetch_events {ι : Type} (server : ℕ → ServerResp ι)
    (take cap maxRetries : ℕ) (base : ℚ) : Except String (FetchResult ι) :=
  fetchGo server take maxRetries cap base (cap + maxRetries + 1) 0 0 0 [] [] []

/-! ### `preprocess_and_unique` (app.py lines 155–191)

Timestamps are minutes since the Unix epoch. A raw event carries the parse
result of its `storageDate` (`none` when the field is absent or
unparseable, both of which `pd.to_datetime(..., errors="coerce")` turns
into NaT), the `eventDate` field (`none` when the key is absent — so the
column does not exist for it — and `some p` when present with parse result
`p`), the `contact` field, and the `from` field. The timezone is an
arbitrary instant→offset-in-minutes function, covering DST;
`datetime_local` stores the local wall clock in minutes. Comparisons and
sorting of the tz-aware `datetime_local` column in pandas compare the
underlying UTC instant, so the sort key below is `datetime_utc`. -/

structure RawEvent where
  storageDate : Option Int
  eventDateRaw : Option (Option Int)
  contact : Option PyVal
  fromField : Option String

structure NormRow where
  raw : RawEvent
  datetime_utc : Int
  datetime_local : Int
  hora : Int
  user_id : Option String
  horario_comercial : String

/-- Sortedness by the instant underlying `datetime_local`. -/
def SortedK (l : List NormRow) : Prop :=
  l.Pairwise (fun a b => a.datetime_utc ≤ b.datetime_utc)

/-- The contract pandas documents for `sort_values("datetime_local")`
with its default `kind='quicksort'`: the result is the rows, permuted,
ordered by the column, and nothing more — the default kind is documented
as *not* stable, so the relative order of rows with exactly equal
timestamps is unspecified. The pipeline below is parameterized by any
sorting function satisfying this contract. -/
def sortValuesSpec (sorter : List NormRow → List NormRow) : Prop :=
  ∀ l, List.Perm (sorter l) l ∧ SortedK (sorter l)

/-- Stable insertion step: `x` goes in front of the first element whose
key is not smaller, so equal keys keep their original relative order. -/
def insertB (x : NormRow) : List NormRow → List NormRow
  | [] => [x]
  | y :: ys => if x.datetime_utc ≤ y.datetime_utc then x :: y :: ys else y :: insertB x ys

/-- A stable sort: one behaviour admitted by `sortValuesSpec`, used to
instantiate witnesses on concrete inputs. -/
def isort : List NormRow → List NormRow
  | [] => []
  | x :: xs => insertB x (isort xs)

/-- Anti-stable insertion step: `x` goes after the run of elements with a
key not larger, so equal keys end up in reversed relative order. -/
def insertA (x : NormRow) : List NormRow → List NormRow
  | [] => [x]
  | y :: ys => if y.datetime_utc ≤ x.datetime_utc then y :: insertA x ys else x :: y :: ys

/-- An anti-stable sort: another behaviour admitted by `sortValuesSpec`
(pandas lists only mergesort/stable as stable kinds, and numpy's introsort
demonstrably reorders equal keys once a partition exceeds its small-sort
threshold), used to exhibit what the unstable default does *not*
guarantee on timestamp ties. -/
def isortA : List NormRow → List NormRow
  | [] => []
  | x :: xs => insertA x (isortA xs)

/-- Model of `drop_duplicates(subset=["user_id"], keep="first")`. -/
def dedupFirst (seen : List (Option String)) : List NormRow → List NormRow
  | [] => []
  | r :: rs =>
    if r.user_id ∈ seen then dedupFirst seen rs
    else r :: dedupFirst (r.user_id :: seen) rs

/-- The first-contact step of app.py lines 185–190: sort by local
timestamp, drop null user_id, keep the first row of each user_id —
parameterized by the library's sorting behaviour. -/
def dedup (sorter : List NormRow → List NormRow) (df : List NormRow) : List NormRow :=
  dedupFirst [] ((sorter df).filter (fun r => r.user_id.isSome))

def mkRow (off : Int → Int) (start_h end_h : Int) (e : RawEvent) (t : Int)
    (uid : Option String) : NormRow :=
  let lw := t + off t
  let h := (lw.fdiv 60).emod 24
  { raw := e, datetime_utc := t, datetime_local := lw, hora := h, user_id := uid,
    horario_comercial := business_bucket (some h) start_h end_h }

/-- Apply `f` in list order, stopping at the first raised error, as
`Series.apply` does. -/
def mapE {α β : Type} (f : α → Except String β) : List α → Except String (List β)
  | [] => Except.ok []
  | a :: as =>
    match f a with
    | Except.error e => Except.error e
    | Except.ok b =>
      match mapE f as with
      | Except.error e => Except.error e
      | Except.ok bs => Except.ok (b :: bs)

def preprocess_and_unique (raw : List RawEvent) (off : Int → Int)
    (sorter : List NormRow → List NormRow) (start_h end_h : Int) :
    Except String (List NormRow × List NormRow) :=
  match raw with
  | [] => Except.ok ([], [])
  | _ =>
    -- storageDate column, with the all-or-nothing eventDate fallback
    let parsed :=
      if (raw.all fun e => e.storageDate.isNone) && (raw.any fun e => e.eventDateRaw.isSome)
      then raw.map (fun e => (e, e.eventDateRaw.bind id))
      else raw.map (fun e => (e, e.storageDate))
    -- dropna(subset=["datetime_utc"])
    let kept := parsed.filterMap (fun p => p.2.map (fun t => (p.1, t)))
    -- user_id column: extract_identity when the contact column exists
    -- (a row missing the key holds NaN, whose str() is "nan")
    match
      if raw.any (fun e => e.contact.isSome) then
        mapE (fun p => extract_identity (p.1.contact.getD (PyVal.pother "nan"))) kept
      else Except.ok (kept.map fun _ => (none : Option String))
    with
    | Except.error e => Except.error e
    | Except.ok uids0 =>
      -- all-or-nothing fallback to the raw `from` column
      let uids :=
        if (uids0.all fun u => u.isNone) && (raw.any fun e => e.fromField.isSome)
        then kept.map (fun p => p.1.fromField)
        else uids0
      let df := (kept.zip uids).map (fun pu => mkRow off start_h end_h pu.1.1 pu.1.2 pu.2)
      Except.ok (df, dedup sorter df)

/-- The smallest timestamp of a list of rows (0 on the empty list, which
no statement below relies on). -/
def minKeyD : List NormRow → Int
  | [] => 0
  | y :: t => t.foldl (fun a r => min a r.datetime_utc) y.datetime_utc

/-- The rows achieving the earliest timestamp, in input order: the
candidates the spec allows dedup to keep for a user. Stated from the
spec's words, to be compared with `dedup`. -/
def minRows (l : List NormRow) : List NormRow :=
  l.filter (fun r => r.datetime_utc == minKeyD l)

/-! ### `summarize` (app.py lines 193–236) -/

/-- Half-to-even integer rounding, as numpy/pandas `round` does. -/
def roundHE (q : ℚ) : ℤ :=
  let f := ⌊q⌋
  if q - f < 1 / 2 then f
  else if 1 / 2 < q - f then f + 1
  else if 2 ∣ f then f else f + 1

/-- `.round(2)` of pandas, on exact rationals. -/
def round2 (q : ℚ) : ℚ := (roundHE (q * 100) : ℚ) / 100

def dentroCount (l : List NormRow) : ℕ :=
  (l.filter fun r => r.horario_comercial == "Dentro").length

def foraCount (l : List NormRow) : ℕ :=
  (l.filter fun r => r.horario_comercial == "Fora").length

def dentroPct (l : List NormRow) : ℚ :=
  round2 ((dentroCount l : ℚ) / (l.length : ℚ) * 100)

def foraPct (l : List NormRow) : ℚ :=
  round2 ((foraCount l : ℚ) / (l.length : ℚ) * 100)

/-- Days-from-civil-date (proleptic Gregorian, day 0 = 1970-01-01). -/
def daysFromCivil (y m d : Int) : Int :=
  let y2 := if m ≤ 2 then y - 1 else y
  let era := y2.fdiv 400
  let yoe := y2 - era * 400
  let mp := (m + 9).emod 12
  let doy := (153 * mp + 2).fdiv 5 + d - 1
  let doe := yoe * 365 + yoe.fdiv 4 - yoe.fdiv 100 + doy
  era * 146097 + doe - 719468

/-- Civil year of a day number. -/
def civilYearOfDay (z : Int) : Int :=
  let z2 := z + 719468
  let era := z2.fdiv 146097
  let doe := z2 - era * 146097
  let yoe := (doe - doe.fdiv 1460 + doe.fdiv 36524 - doe.fdiv 146096).fdiv 365
  let y := yoe + era * 400
  let doy := doe - (365 * yoe + yoe.fdiv 4 - yoe.fdiv 100)
  let mp := (5 * doy + 2).fdiv 153
  let m := if mp < 10 then mp + 3 else mp - 9
  if m ≤ 2 then y + 1 else y

def localDay (r : NormRow) : Int := r.datetime_local.fdiv 1440

/-- `isocalendar()` year and week of a local day number. -/
def isoYearWeek (d : Int) : Int × Int :=
  let wd := (d + 3).emod 7
  let th := d - wd + 3
  let y := civilYearOfDay th
  (y, (th - daysFromCivil y 1 1).fdiv 7 + 1)

def diasOrd : List String :=
  ["Segunda-feira", "Terça-feira", "Quarta-feira", "Quinta-feira",
   "Sexta-feira", "Sábado", "Domingo"]

def diaSemana (r : NormRow) : String :=
  diasOrd.getD ((localDay r + 3).emod 7).toNat "Segunda-feira"

/-- Counts of Inside/Outside rows among those matching `p`. -/
def countDF (l : List NormRow) (p : NormRow → Bool) : ℕ × ℕ :=
  ((l.filter fun r => p r && (r.horario_comercial == "Dentro")).length,
   (l.filter fun r => p r && (r.horario_comercial == "Fora")).length)

def insLe {α : Type} (le : α → α → Bool) (x : α) : List α → List α
  | [] => [x]
  | y :: ys => if le x y then x :: y :: ys else y :: insLe le x ys

def sortK {α : Type} (le : α → α → Bool) : List α → List α
  | [] => []
  | x :: xs => insLe le x (sortK le xs)

def lexLe (a b : Int × Int) : Bool :=
  if a.1 < b.1 then true else if b.1 < a.1 then false else decide (a.2 ≤ b.2)

def semanaT (l : List NormRow) : List ((Int × Int) × ℕ × ℕ) :=
  (sortK lexLe ((l.map fun r => isoYearWeek (localDay r)).dedup)).map
    (fun k => (k, countDF l (fun r => isoYearWeek (localDay r) == k)))

def diaT (l : List NormRow) : List (String × ℕ × ℕ) :=
  diasOrd.map (fun dnm => (dnm, countDF l (fun r => diaSemana r == dnm)))

def horaT (l : List NormRow) : List (Int × ℕ × ℕ) :=
  (sortK (fun a b => decide (a ≤ b)) ((l.map fun r => r.hora).dedup)).map
    (fun k => (k, countDF l (fun r => r.hora == k)))

structure Summary where
  total : ℕ
  resumo : List (String × ℕ × ℚ)
  semana : List ((Int × Int) × ℕ × ℕ)
  dia : List (String × ℕ × ℕ)
  hora : List (Int × ℕ × ℕ)

/-- Model of `summarize`: on the empty table the source returns zero and
empty frames; otherwise the fixed-order Inside/Outside summary with
2-decimal percentages, and the weekly / weekday / hourly roll-ups
(weekday rows cover all seven categories, as `observed=False` plus the
`reindex` do). -/
def summarize (l : List NormRow) : Summary :=
  match l with
  | [] => ⟨0, [], [], [], []⟩
  | _ =>
    { total := l.length
      resumo := [("Dentro", dentroCount l, dentroPct l), ("Fora", foraCount l, foraPct l)]
      semana := semanaT l
      dia := diaT l
      hora := horaT l }

/-- Decidable equality of `Except` results, for concrete evaluations. -/
instance {e a : Type} [DecidableEq e] [DecidableEq a] : DecidableEq (Except e a) := fun x y =>
  match x, y with
  | Except.ok u, Except.ok v =>
    if h : u = v then isTrue (by rw [h])
    else isFalse (fun hc => h (Except.ok.inj hc))
  | Except.error u, Except.error v =>
    if h : u = v then isTrue (by rw [h])
    else isFalse (fun hc => h (Except.error.inj hc))
  | Except.ok _, Except.error _ => isFalse (fun hc => Except.noConfusion hc)
  | Except.error _, Except.ok _ => isFalse (fun hc => Except.noConfusion hc)

/-! ### Concrete instances used to exercise the definitions -/

/-- Server answering 503 twice, then a page that reaches the cap. -/
def server503 : ℕ → ServerResp ℕ := fun n =>
  if n < 2 then ServerResp.httpResp 503 (some (JBody.items []))
  else ServerResp.httpResp 200 (some (JBody.items [7]))

def res503 : FetchResult ℕ := ⟨[7], [[7]], [4 / 5 * 2 ^ 0, 4 / 5 * 2 ^ 1], 3, false⟩

/-- Server giving one good page, then 401. -/
def server401d : ℕ → ServerResp ℕ := fun n =>
  if n = 0 then ServerResp.httpResp 200 (some (JBody.items [7]))
  else ServerResp.httpResp 401 none

def res401 : FetchResult ℕ := ⟨[7], [[7]], [], 2, false⟩

/-- Server giving one good page, then 503 forever (budget exhaustion). -/
def serverExhd : ℕ → ServerResp ℕ := fun n =>
  if n = 0 then ServerResp.httpResp 200 (some (JBody.items [7]))
  else ServerResp.httpResp 503 none

def resExh : FetchResult ℕ :=
  ⟨[7], [[7]],
    [4 / 5 * 2 ^ 0, 4 / 5 * 2 ^ 1, 4 / 5 * 2 ^ 2, 4 / 5 * 2 ^ 3, 4 / 5 * 2 ^ 4], 7, false⟩

/-- Server giving one good page, then a 200 whose JSON body is a truthy
non-dict such as `[1]`. -/
def serverBadd : ℕ → ServerResp ℕ := fun n =>
  if n = 0 then ServerResp.httpResp 200 (some (JBody.items [7]))
  else ServerResp.httpResp 200 (some JBody.badShape)

/-- Server returning 3-item pages forever. -/
def serverOver : ℕ → ServerResp ℕ := fun _ =>
  ServerResp.httpResp 200 (some (JBody.items [0, 0, 0]))

def resOver : FetchResult ℕ :=
  ⟨List.replicate 12 0, List.replicate 4 [0, 0, 0], [], 4, false⟩

/-- Server returning single-item pages forever. -/
def serverOne : ℕ → ServerResp ℕ := fun _ =>
  ServerResp.httpResp 200 (some (JBody.items [5]))

def resOne : FetchResult ℕ := ⟨[5, 5], [[5], [5]], [], 2, false⟩

/-- Two events of user u1 at 10:00 and 09:00 UTC on day 0. -/
def evT1 : RawEvent := ⟨some 600, none, some (PyVal.pdict [("identity", PyVal.pstr "u1")]), none⟩

def evT2 : RawEvent := ⟨some 540, none, some (PyVal.pdict [("identity", PyVal.pstr "u1")]), none⟩

def rowT1 : NormRow := ⟨evT1, 600, 600, 10, some "u1", "Dentro"⟩

def rowT2 : NormRow := ⟨evT2, 540, 540, 9, some "u1", "Dentro"⟩

/-- An event with a parseable storageDate and no eventDate key. -/
def evA : RawEvent := ⟨some 600, none, none, none⟩

/-- An event with an unparseable storageDate but a parseable eventDate. -/
def evB : RawEvent := ⟨none, some (some 300), none, none⟩

def rowA : NormRow := ⟨evA, 600, 600, 10, none, "Dentro"⟩

/-- Two events of the same user u1 with exactly equal timestamps but
distinguishable payloads (only the second carries an eventDate key). -/
def evS1 : RawEvent := ⟨some 600, none, some (PyVal.pdict [("identity", PyVal.pstr "u1")]), none⟩

def evS2 : RawEvent :=
  ⟨some 600, some (some 0), some (PyVal.pdict [("identity", PyVal.pstr "u1")]), none⟩

def rowS1 : NormRow := ⟨evS1, 600, 600, 10, some "u1", "Dentro"⟩

def rowS2 : NormRow := ⟨evS2, 600, 600, 10, some "u1", "Dentro"⟩

/-- Two first-contact rows of distinct users sharing one timestamp. -/
def rowK1 : NormRow := ⟨⟨none, none, none, none⟩, 600, 600, 10, some "ua", "Dentro"⟩

def rowK2 : NormRow := ⟨⟨none, none, none, none⟩, 600, 600, 10, some "ub", "Dentro"⟩

/-- Three first-contact rows: two Inside, one Outside. -/
def rowsC7 : List NormRow :=
  [⟨⟨none, none, none, none⟩, 600, 600, 10, some "a", "Dentro"⟩,
   ⟨⟨none, none, none, none⟩, 660, 660, 11, some "b", "Dentro"⟩,
   ⟨⟨none, none, none, none⟩, 1200, 1200, 20, some "c", "Fora"⟩]

/-! ## Theorems

### Invariants of the fetch loop -/

/-- Backoff sleeps observed so far are exactly `base * 2 ^ i` for
`i = 0, 1, …`: the attempt counter is shared by the whole fetch and never
reset. -/
theorem fetchGo_sleeps_inv {ι : Type} (server : ℕ → ServerResp ι)
    (take mR cap : ℕ) (base : ℚ) :
    ∀ (fuel n skip attempt : ℕ) (acc : List ι) (pages : List (List ι))
      (sleeps : List ℚ) (r : FetchResult ι),
      attempt ≤ mR →
      sleeps = (List.range attempt).map (fun i => base * 2 ^ i) →
      fetchGo server take mR cap base fuel n skip attempt acc pages sleeps = Except.ok r →
      r.sleeps = (List.range r.sleeps.length).map (fun i => base * 2 ^ i) ∧
        r.sleeps.length ≤ mR := by
  intro fuel
  induction fuel with
  | zero =>
    intro n skip attempt acc pages sleeps r ha hs hfe
    simp only [fetchGo] at hfe
    injection hfe with h
    subst h
    subst hs
    exact ⟨by simp, by simpa using ha⟩
  | succ f ih =>
    intro n skip attempt acc pages sleeps r ha hs hfe
    simp only [fetchGo] at hfe
    split at hfe
    · injection hfe with h; subst h; subst hs; exact ⟨by simp, by simpa using ha⟩
    · split at hfe
      · injection hfe with h; subst h; subst hs; exact ⟨by simp, by simpa using ha⟩
      · split at hfe
        · split at hfe
          · rename_i hlt
            refine ih _ _ _ _ _ _ _ hlt ?_ hfe
            subst hs
            simp [List.range_succ]
          · injection hfe with h; subst h; subst hs; exact ⟨by simp, by simpa using ha⟩
        · split at hfe
          · injection hfe with h; subst h; subst hs; exact ⟨by simp, by simpa using ha⟩
          · split at hfe
            · injection hfe with h; subst h; subst hs; exact ⟨by simp, by simpa using ha⟩
            · exact absurd hfe (by simp)
            · split at hfe
              · injection hfe with h; subst h; subst hs
                exact ⟨by simp, by simpa using ha⟩
              · exact ih _ _ _ _ _ _ _ ha hs hfe

/-- The collected list is always the concatenation of the successfully
fetched pages, in server order. -/
theorem fetchGo_join_inv {ι : Type} (server : ℕ → ServerResp ι)
    (take mR cap : ℕ) (base : ℚ) :
    ∀ (fuel n skip attempt : ℕ) (acc : List ι) (pages : List (List ι))
      (sleeps : List ℚ) (r : FetchResult ι),
      acc = pages.flatten →
      fetchGo server take mR cap base fuel n skip attempt acc pages sleeps = Except.ok r →
      r.items = r.pages.flatten := by
  intro fuel
  induction fuel with
  | zero =>
    intro n skip attempt acc pages sleeps r hj hfe
    simp only [fetchGo] at hfe
    injection hfe with h
    subst h
    exact hj
  | succ f ih =>
    intro n skip attempt acc pages sleeps r hj hfe
    simp only [fetchGo] at hfe
    split at hfe
    · injection hfe with h; subst h; exact hj
    · split at hfe
      · injection hfe with h; subst h; exact hj
      · split at hfe
        · split at hfe
          · exact ih _ _ _ _ _ _ _ hj hfe
          · injection hfe with h; subst h; exact hj
        · split at hfe
          · injection hfe with h; subst h; exact hj
          · split at hfe
            · injection hfe with h; subst h; exact hj
            · exact absurd hfe (by simp)
            · split at hfe
              · injection hfe with h; subst h
                simp [hj, List.flatten_append]
              · exact ih _ _ _ _ _ _ _ (by simp [hj, List.flatten_append]) hfe

/-- Bound on the number of requests issued. -/
theorem fetchGo_requests_inv {ι : Type} (server : ℕ → ServerResp ι)
    (take mR cap : ℕ) (base : ℚ) :
    ∀ (fuel n skip attempt : ℕ) (acc : List ι) (pages : List (List ι))
      (sleeps : List ℚ) (r : FetchResult ι),
      fetchGo server take mR cap base fuel n skip attempt acc pages sleeps = Except.ok r →
      r.requests ≤ n + (cap - acc.length) + (mR - attempt) + 1 := by
  intro fuel
  induction fuel with
  | zero =>
    intro n skip attempt acc pages sleeps r hfe
    simp only [fetchGo] at hfe
    injection hfe with h
    subst h
    simp only []
    omega
  | succ f ih =>
    intro n skip attempt acc pages sleeps r hfe
    simp only [fetchGo] at hfe
    split at hfe
    · injection hfe with h; subst h; simp only []; omega
    · split at hfe
      · injection hfe with h; subst h; simp only []; omega
      · split at hfe
        · split at hfe
          · rename_i hlt
            have := ih _ _ _ _ _ _ _ hfe
            omega
          · injection hfe with h; subst h; simp only []; omega
        · split at hfe
          · injection hfe with h; subst h; simp only []; omega
          · split at hfe
            · injection hfe with h; subst h; simp only []; omega
            · exact absurd hfe (by simp)
            · split at hfe
              · injection hfe with h; subst h; simp only []; omega
              · rename_i its heq hcont
                have hne := not_or.mp hcont
                have h1 : 0 < its.length := by
                  cases its with
                  | nil => exact absurd rfl hne.1
                  | cons a l => simp
                have h2 := ih _ _ _ _ _ _ _ hfe
                have h3 : (acc ++ its).length < cap := Nat.lt_of_not_le hne.2
                simp only [List.length_append] at h2 h3
                omega

/-- With every page at most `take` items, the collected list never exceeds
`cap + take` items. -/
theorem fetchGo_len_inv {ι : Type} (server : ℕ → ServerResp ι)
    (take mR cap : ℕ) (base : ℚ) (hpage : ∀ m, pageLen (server m) ≤ take) :
    ∀ (fuel n skip attempt : ℕ) (acc : List ι) (pages : List (List ι))
      (sleeps : List ℚ) (r : FetchResult ι),
      (acc.length = 0 ∨ acc.length < cap) →
      fetchGo server take mR cap base fuel n skip attempt acc pages sleeps = Except.ok r →
      r.items.length ≤ cap + take := by
  intro fuel
  induction fuel with
  | zero =>
    intro n skip attempt acc pages sleeps r hinv hfe
    simp only [fetchGo] at hfe
    injection hfe with h
    subst h
    simp only []
    omega
  | succ f ih =>
    intro n skip attempt acc pages sleeps r hinv hfe
    simp only [fetchGo] at hfe
    split at hfe
    · injection hfe with h; subst h; simp only []; omega
    · split at hfe
      · injection hfe with h; subst h; simp only []; omega
      · split at hfe
        · split at hfe
          · exact ih _ _ _ _ _ _ _ hinv hfe
          · injection hfe with h; subst h; simp only []; omega
        · split at hfe
          · injection hfe with h; subst h; simp only []; omega
          · split at hfe
            · injection hfe with h; subst h; simp only []; omega
            · exact absurd hfe (by simp)
            · rename_i status hs401 htr h45 hbody
              have hlen : pageLen (server n) ≤ take := hpage n
              rw [hbody] at hlen
              simp only [pageLen] at hlen
              split at hfe
              · injection hfe with h; subst h
                simp only [List.length_append]
                omega
              · rename_i hcont
                refine ih _ _ _ _ _ _ _ (Or.inr ?_) hfe
                have hne : ¬ _ ∧ ¬ _ := not_or.mp hcont
                exact Nat.lt_of_not_le hne.2

/-- The fuel supplied by `fetch_events` is never exhausted: each loop
iteration either exits or strictly decreases
`(cap - collected) + (budget - attempt)`. -/
theorem fetchGo_fuel_inv {ι : Type} (server : ℕ → ServerResp ι)
    (take mR cap : ℕ) (base : ℚ) :
    ∀ (fuel n skip attempt : ℕ) (acc : List ι) (pages : List (List ι))
      (sleeps : List ℚ) (r : FetchResult ι),
      (cap - acc.length) + (mR - attempt) < fuel →
      fetchGo server take mR cap base fuel n skip attempt acc pages sleeps = Except.ok r →
      r.fuelOut = false := by
  intro fuel
  induction fuel with
  | zero =>
    intro n skip attempt acc pages sleeps r hm _
    omega
  | succ f ih =>
    intro n skip attempt acc pages sleeps r hm hfe
    simp only [fetchGo] at hfe
    split at hfe
    · injection hfe with h; subst h; rfl
    · split at hfe
      · injection hfe with h; subst h; rfl
      · split at hfe
        · split at hfe
          · rename_i hlt
            refine ih _ _ _ _ _ _ _ ?_ hfe
            omega
          · injection hfe with h; subst h; rfl
        · split at hfe
          · injection hfe with h; subst h; rfl
          · split at hfe
            · injection hfe with h; subst h; rfl
            · exact absurd hfe (by simp)
            · split at hfe
              · injection hfe with h; subst h; rfl
              · rename_i its heq hcont
                refine ih _ _ _ _ _ _ _ ?_ hfe
                have hne := not_or.mp hcont
                have h1 : 0 < its.length := by
                  cases its with
                  | nil => exact absurd rfl hne.1
                  | cons a l => simp
                have h2 : (acc ++ its).length < cap := Nat.lt_of_not_le hne.2
                simp only [List.length_append] at h2 ⊢
                omega

/-! ### Claim theorems for the fetch loop -/

/-- C4: over any server behaviour, the backoff delays observed during a
whole paginated fetch are exactly `base·2⁰, base·2¹, …` — the attempt
counter is shared across all pages and never resets — and there are at
most `max_retries` of them. -/
theorem fetch_events_backoff_spec {ι : Type} (server : ℕ → ServerResp ι)
    (take cap mR : ℕ) (base : ℚ) (r : FetchResult ι)
    (hok : fetch_events server take cap mR base = Except.ok r) :
    r.sleeps = (List.range r.sleeps.length).map (fun i => base * 2 ^ i) ∧
      r.sleeps.length ≤ mR :=
  fetchGo_sleeps_inv server take mR cap base _ 0 0 0 [] [] [] r (Nat.zero_le _) (by simp) hok

/-- Witness for C4: a server answering 503 twice and then a good page
yields a successful fetch with exactly the two delays 0.8 and 1.6. -/
theorem fetch_events_backoff_spec_w :
    res503.sleeps = (List.range res503.sleeps.length).map (fun i => (4 / 5 : ℚ) * 2 ^ i) ∧
      res503.sleeps.length ≤ 5 :=
  fetch_events_backoff_spec server503 500 1 5 (4 / 5) res503 rfl

/-- C3 (amended): when every page holds at most `take` items the returned
list exceeds `max_events` by at most one page (so is at most
`max_events + take` long), and at most `max_events + max_retries + 1`
requests are ever issued. -/
theorem fetch_events_cap_bound {ι : Type} (server : ℕ → ServerResp ι)
    (take cap mR : ℕ) (base : ℚ) (r : FetchResult ι)
    (hpage : ∀ m, pageLen (server m) ≤ take)
    (hok : fetch_events server take cap mR base = Except.ok r) :
    r.items.length ≤ cap + take ∧ r.requests ≤ cap + mR + 1 := by
  constructor
  · exact fetchGo_len_inv server take mR cap base hpage _ 0 0 0 [] [] [] r (Or.inl rfl) hok
  · have := fetchGo_requests_inv server take mR cap base _ 0 0 0 [] [] [] r hok
    simpa using this

/-- Witness for C3's amended bound, on a server of single-item pages with
cap 2. -/
theorem fetch_events_cap_bound_w :
    resOne.items.length ≤ 2 + 1 ∧ resOne.requests ≤ 2 + 5 + 1 :=
  fetch_events_cap_bound serverOne 1 2 5 (4 / 5) resOne (fun _ => Nat.le.refl) rfl

/-- C3 counterexample: the cap is checked only after extending, so with
`max_events = 10` and 3-item pages the fetch returns 12 items — the claim
"never more than max_events items" is false as stated. -/
theorem fetch_events_cap_cex :
    fetch_events serverOver 3 10 5 (4 / 5) = Except.ok resOver ∧
      10 < resOver.items.length :=
  ⟨rfl, by decide⟩

/-- C5 (code bug): a 401 after a page, or retry-budget exhaustion, indeed
terminates the loop returning the accumulated page; but a 200 response
whose JSON body is a truthy non-dict hits the extraction line outside the
`try` and an AttributeError propagates out of `fetch_events`, discarding
the accumulated page — contradicting "no exception ever propagates". -/
theorem fetch_events_partial_results :
    fetch_events server401d 500 1000 5 (4 / 5) = Except.ok res401 ∧
    fetch_events serverExhd 500 1000 5 (4 / 5) = Except.ok resExh ∧
    fetch_events serverBadd 500 1000 5 (4 / 5) = Except.error "AttributeError" :=
  ⟨rfl, rfl, rfl⟩

/-! ### Claim theorems for classification and extraction -/

/-- C1: for hours within a normal window (`start ≤ end`) the bucket is
Inside iff `start ≤ h < end`; for a wrapping window it is Inside iff
`h ≥ start ∨ h < end`; the result is always one of the two buckets, and a
non-convertible hour is always Outside. -/
theorem business_bucket_spec (h start_h end_h : Int)
    (hs0 : 0 ≤ start_h) (hs1 : start_h ≤ 23) (he0 : 0 ≤ end_h) (he1 : end_h ≤ 23) :
    (start_h ≤ end_h →
      (business_bucket (some h) start_h end_h = "Dentro" ↔ start_h ≤ h ∧ h < end_h)) ∧
    (end_h < start_h →
      (business_bucket (some h) start_h end_h = "Dentro" ↔ h ≥ start_h ∨ h < end_h)) ∧
    (business_bucket (some h) start_h end_h = "Dentro" ∨
      business_bucket (some h) start_h end_h = "Fora") ∧
    business_bucket none start_h end_h = "Fora" := by
  refine ⟨fun hle => ?_, fun hgt => ?_, ?_, rfl⟩
  · simp only [business_bucket, if_pos hle]
    split_ifs with hin
    · exact ⟨fun _ => hin, fun _ => rfl⟩
    · exact ⟨fun hc => absurd hc (by decide), fun hc => absurd hc hin⟩
  · simp only [business_bucket, if_neg (not_le.mpr hgt)]
    split_ifs with hin
    · exact ⟨fun _ => hin, fun _ => rfl⟩
    · exact ⟨fun hc => absurd hc (by decide), fun hc => absurd hc hin⟩
  · simp only [business_bucket]
    split_ifs <;> simp

/-- Witness for C1 at the wrap window 22→6 and hour 23. -/
theorem business_bucket_spec_w :
    (((22 : Int) ≤ 6 →
      (business_bucket (some 23) 22 6 = "Dentro" ↔ (22 : Int) ≤ 23 ∧ (23 : Int) < 6)) ∧
    ((6 : Int) < 22 →
      (business_bucket (some 23) 22 6 = "Dentro" ↔ (23 : Int) ≥ 22 ∨ (23 : Int) < 6)) ∧
    (business_bucket (some 23) 22 6 = "Dentro" ∨
      business_bucket (some 23) 22 6 = "Fora") ∧
    business_bucket none 22 6 = "Fora") :=
  business_bucket_spec 23 22 6 (by decide) (by decide) (by decide) (by decide)

/-- C6 (code bug): the three documented shapes behave as specified — a
dict with an "identity" key, a single-quoted dict-like string, and an
unparseable string — but a contact value that is a string parsing to a
JSON non-dict (such as "5") makes `safe_json` return a non-dict, and
`d.get(...)` raises an AttributeError instead of returning null. -/
theorem extract_identity_cases :
    extract_identity (PyVal.pdict [("identity", PyVal.pstr "user-42")]) =
      Except.ok (some "user-42") ∧
    extract_identity (PyVal.pstr "\x7b\x27Identity\x27: \x27user-7\x27\x7d") =
      Except.ok (some "user-7") ∧
    extract_identity (PyVal.pstr "garbage") = Except.ok none ∧
    extract_identity (PyVal.pstr "5") = Except.error "AttributeError" := by
  refine ⟨rfl, by decide, by decide, by decide⟩

/-- C9: an empty raw event list produces empty normalized and
first-contact tables (for any timezone, sorting behaviour and window), and
`summarize` of the empty table is the zero summary with all four frames
empty — no division by zero, no failure. -/
theorem empty_input_spec :
    (∀ (off : Int → Int) (sorter : List NormRow → List NormRow) (start_h end_h : Int),
      preprocess_and_unique [] off sorter start_h end_h = Except.ok ([], [])) ∧
    summarize [] = ⟨0, [], [], [], []⟩ :=
  ⟨fun _ _ _ _ => rfl, rfl⟩

/-! ## Theorems about the admissible sorting behaviours -/

theorem insertB_mem (x a : NormRow) (l : List NormRow) :
    a ∈ insertB x l ↔ a = x ∨ a ∈ l := by
  induction l with
  | nil => simp [insertB]
  | cons y ys ih =>
    simp only [insertB]
    split_ifs with hc
    · simp [List.mem_cons]
    · simp only [List.mem_cons, ih]
      tauto

theorem insertB_sorted (x : NormRow) (l : List NormRow) (hl : SortedK l) :
    SortedK (insertB x l) := by
  induction l with
  | nil => simp [insertB, SortedK]
  | cons y ys ih =>
    rw [SortedK, List.pairwise_cons] at hl
    simp only [insertB]
    split_ifs with hc
    · rw [SortedK, List.pairwise_cons]
      refine ⟨?_, List.pairwise_cons.mpr hl⟩
      intro z hz
      rcases List.mem_cons.mp hz with h | h
      · exact h ▸ hc
      · exact le_trans hc (hl.1 z h)
    · rw [SortedK, List.pairwise_cons]
      refine ⟨?_, ih hl.2⟩
      intro z hz
      rcases (insertB_mem x z ys).mp hz with h | h
      · exact h ▸ le_of_lt (lt_of_not_le hc)
      · exact hl.1 z h

theorem isort_sorted (l : List NormRow) : SortedK (isort l) := by
  induction l with
  | nil => exact List.Pairwise.nil
  | cons y ys ih => exact insertB_sorted y (isort ys) ih

theorem insertB_perm (x : NormRow) (l : List NormRow) :
    List.Perm (insertB x l) (x :: l) := by
  induction l with
  | nil => exact List.Perm.refl _
  | cons y ys ih =>
    rw [insertB]
    split_ifs with hc
    · exact List.Perm.refl _
    · exact List.Perm.trans (List.Perm.cons y ih) (List.Perm.swap x y ys)

theorem isort_perm (l : List NormRow) : List.Perm (isort l) l := by
  induction l with
  | nil => exact List.Perm.refl _
  | cons x xs ih =>
    exact List.Perm.trans (insertB_perm x (isort xs)) (List.Perm.cons x ih)

/-- The stable sort is one behaviour the library contract admits. -/
theorem sortValuesSpec_isort : sortValuesSpec isort :=
  fun l => ⟨isort_perm l, isort_sorted l⟩

theorem insertA_mem (x a : NormRow) (l : List NormRow) :
    a ∈ insertA x l ↔ a = x ∨ a ∈ l := by
  induction l with
  | nil => simp [insertA]
  | cons y ys ih =>
    simp only [insertA]
    split_ifs with hc
    · simp only [List.mem_cons, ih]
      tauto
    · simp [List.mem_cons]

theorem insertA_sorted (x : NormRow) (l : List NormRow) (hl : SortedK l) :
    SortedK (insertA x l) := by
  induction l with
  | nil => simp [insertA, SortedK]
  | cons y ys ih =>
    rw [SortedK, List.pairwise_cons] at hl
    simp only [insertA]
    split_ifs with hc
    · rw [SortedK, List.pairwise_cons]
      refine ⟨?_, ih hl.2⟩
      intro z hz
      rcases (insertA_mem x z ys).mp hz with h | h
      · exact h ▸ hc
      · exact hl.1 z h
    · rw [SortedK, List.pairwise_cons]
      refine ⟨?_, List.pairwise_cons.mpr hl⟩
      intro z hz
      have hxy : x.datetime_utc ≤ y.datetime_utc := le_of_lt (lt_of_not_le hc)
      rcases List.mem_cons.mp hz with h | h
      · exact h ▸ hxy
      · exact le_trans hxy (hl.1 z h)

theorem isortA_sorted (l : List NormRow) : SortedK (isortA l) := by
  induction l with
  | nil => exact List.Pairwise.nil
  | cons y ys ih => exact insertA_sorted y (isortA ys) ih

theorem insertA_perm (x : NormRow) (l : List NormRow) :
    List.Perm (insertA x l) (x :: l) := by
  induction l with
  | nil => exact List.Perm.refl _
  | cons y ys ih =>
    rw [insertA]
    split_ifs with hc
    · exact List.Perm.trans (List.Perm.cons y ih) (List.Perm.swap x y ys)
    · exact List.Perm.refl _

theorem isortA_perm (l : List NormRow) : List.Perm (isortA l) l := by
  induction l with
  | nil => exact List.Perm.refl _
  | cons x xs ih =>
    exact List.Perm.trans (insertA_perm x (isortA xs)) (List.Perm.cons x ih)

/-- The anti-stable sort is also a behaviour the library contract admits:
nothing the code relies on rules it out. -/
theorem sortValuesSpec_isortA : sortValuesSpec isortA :=
  fun l => ⟨isortA_perm l, isortA_sorted l⟩

/-- Two sorted lists that are permutations of each other and whose
timestamps are pairwise distinct are equal: with no ties, every admissible
sort agrees. -/
theorem eq_of_perm_sorted_nodupKeys :
    ∀ (l2 l1 : List NormRow), List.Perm l1 l2 → SortedK l1 → SortedK l2 →
      ((l2.map fun r => r.datetime_utc).Nodup) → l1 = l2 := by
  intro l2
  induction l2 with
  | nil => intro l1 hp _ _ _; exact List.Perm.eq_nil hp
  | cons y t ih =>
    intro l1 hp h1 h2 hnd
    cases l1 with
    | nil => simpa using hp.length_eq
    | cons x xs =>
      rw [SortedK, List.pairwise_cons] at h1 h2
      rw [List.map_cons, List.nodup_cons] at hnd
      have hxy : x = y := by
        have hxk : x.datetime_utc ≤ y.datetime_utc := by
          have hy : y ∈ x :: xs := hp.mem_iff.mpr (List.mem_cons_self y t)
          rcases List.mem_cons.mp hy with he | hm
          · exact le_of_eq (congrArg (fun r => r.datetime_utc) he.symm)
          · exact h1.1 y hm
        have hyk : y.datetime_utc ≤ x.datetime_utc := by
          have hx : x ∈ y :: t := hp.subset (List.mem_cons_self x xs)
          rcases List.mem_cons.mp hx with he | hm
          · exact le_of_eq (congrArg (fun r => r.datetime_utc) he.symm)
          · exact h2.1 x hm
        have hx : x ∈ y :: t := hp.subset (List.mem_cons_self x xs)
        rcases List.mem_cons.mp hx with he | hm
        · exact he
        · exfalso
          refine hnd.1 ?_
          have hk : x.datetime_utc = y.datetime_utc := le_antisymm hxk hyk
          rw [← hk]
          exact List.mem_map_of_mem (fun r => r.datetime_utc) hm
      subst hxy
      exact congrArg (List.cons x) (ih xs hp.cons_inv h1.2 h2.2 hnd.2)

/-! ### The keep-first deduplication -/

theorem dedupFirst_filter (u : Option String) :
    ∀ (l : List NormRow) (seen : List (Option String)),
      (u ∈ seen → (dedupFirst seen l).filter (fun r => r.user_id == u) = []) ∧
      (u ∉ seen → (dedupFirst seen l).filter (fun r => r.user_id == u) =
        (l.filter (fun r => r.user_id == u)).take 1) := by
  intro l
  induction l with
  | nil => intro seen; exact ⟨fun _ => rfl, fun _ => rfl⟩
  | cons r rs ih =>
    intro seen
    constructor
    · intro hu
      rw [dedupFirst]
      split_ifs with hr
      · exact (ih seen).1 hu
      · have hne : (r.user_id == u) = false :=
          beq_eq_false_iff_ne.mpr (fun he => hr (he ▸ hu))
        simp only [List.filter_cons, hne, Bool.false_eq_true, if_false]
        exact (ih (r.user_id :: seen)).1 (List.mem_cons_of_mem _ hu)
    · intro hu
      rw [dedupFirst]
      split_ifs with hr
      · have hne : (r.user_id == u) = false :=
          beq_eq_false_iff_ne.mpr (fun he => hu (he ▸ hr))
        rw [(ih seen).2 hu]
        simp only [List.filter_cons, hne, Bool.false_eq_true, if_false]
      · by_cases he : r.user_id = u
        · have hbe : (r.user_id == u) = true := beq_iff_eq.mpr he
          simp only [List.filter_cons, hbe, if_true]
          rw [(ih (r.user_id :: seen)).1 (by rw [he]; exact List.mem_cons_self u seen)]
          rfl
        · have hne : (r.user_id == u) = false := beq_eq_false_iff_ne.mpr he
          simp only [List.filter_cons, hne, Bool.false_eq_true, if_false]
          refine (ih (r.user_id :: seen)).2 ?_
          intro hmem
          rcases List.mem_cons.mp hmem with h | h
          · exact he h.symm
          · exact hu h

theorem dedupFirst_sublist (seen : List (Option String)) (l : List NormRow) :
    List.Sublist (dedupFirst seen l) l := by
  induction l generalizing seen with
  | nil => exact List.Sublist.refl []
  | cons r rs ih =>
    rw [dedupFirst]
    split_ifs with hr
    · exact (ih seen).cons r
    · exact (ih (r.user_id :: seen)).cons₂ r

theorem dedupFirst_keys (l : List NormRow) :
    ∀ seen, (∀ r ∈ dedupFirst seen l, r.user_id ∉ seen) ∧
      ((dedupFirst seen l).map (fun r => r.user_id)).Nodup := by
  induction l with
  | nil => intro seen; exact ⟨fun r hr => absurd hr (List.not_mem_nil r), List.nodup_nil⟩
  | cons r rs ih =>
    intro seen
    rw [dedupFirst]
    split_ifs with hr
    · exact ih seen
    · constructor
      · intro x hx
        rcases List.mem_cons.mp hx with h | h
        · exact h ▸ hr
        · exact fun hs =>
            (ih (r.user_id :: seen)).1 x h (List.mem_cons_of_mem _ hs)
      · rw [List.map_cons, List.nodup_cons]
        refine ⟨?_, (ih (r.user_id :: seen)).2⟩
        intro hmem
        rcases List.mem_map.mp hmem with ⟨x, hx, hxe⟩
        exact (ih (r.user_id :: seen)).1 x hx (hxe ▸ List.mem_cons_self _ _)

theorem dedupFirst_id (l : List NormRow) :
    ∀ seen, (∀ r ∈ l, r.user_id ∉ seen) → ((l.map fun r => r.user_id).Nodup) →
      dedupFirst seen l = l := by
  induction l with
  | nil => intro seen _ _; rfl
  | cons r rs ih =>
    intro seen hseen hnd
    rw [List.map_cons, List.nodup_cons] at hnd
    rw [dedupFirst, if_neg (hseen r (List.mem_cons_self r rs))]
    refine congrArg (List.cons r) (ih (r.user_id :: seen) ?_ hnd.2)
    intro x hx hmem
    rcases List.mem_cons.mp hmem with h | h
    · exact hnd.1 (h ▸ List.mem_map_of_mem (fun q => q.user_id) hx)
    · exact hseen x (List.mem_cons_of_mem r hx) h

/-! ### Combining the pipeline filters -/

theorem filter_isSome_user (l : List NormRow) (u : String) :
    ((l.filter fun r => r.user_id.isSome).filter fun r => r.user_id == some u) =
      l.filter fun r => r.user_id == some u := by
  induction l with
  | nil => rfl
  | cons r rs ih =>
    rcases Bool.eq_false_or_eq_true r.user_id.isSome with hs | hs
    · rcases Bool.eq_false_or_eq_true (r.user_id == some u) with hb | hb
      · simp only [List.filter_cons, hs, hb, if_true, ih]
      · simp only [List.filter_cons, hs, hb, Bool.false_eq_true, if_false, if_true, ih]
    · have hb : (r.user_id == some u) = false := by
        rcases hn : r.user_id with _ | v
        · rfl
        · rw [hn] at hs; simp at hs
      simp only [List.filter_cons, hs, hb, Bool.false_eq_true, if_false, ih]

/-! ### The leftmost earliest row -/

theorem foldl_min_le (t : List NormRow) :
    ∀ a : Int, (t.foldl (fun x r => min x r.datetime_utc) a) ≤ a ∧
      ∀ r ∈ t, (t.foldl (fun x r => min x r.datetime_utc) a) ≤ r.datetime_utc := by
  induction t with
  | nil => intro a; exact ⟨le_refl a, fun r hr => absurd hr (List.not_mem_nil r)⟩
  | cons z zs ih =>
    intro a
    rw [List.foldl_cons]
    refine ⟨le_trans (ih (min a z.datetime_utc)).1 (min_le_left _ _), ?_⟩
    intro r hr
    rcases List.mem_cons.mp hr with h | h
    · subst h
      exact le_trans (ih (min a r.datetime_utc)).1 (min_le_right _ _)
    · exact (ih (min a z.datetime_utc)).2 r h

theorem foldl_min_mem (t : List NormRow) :
    ∀ a : Int, t.foldl (fun x r => min x r.datetime_utc) a = a ∨
      ∃ r ∈ t, t.foldl (fun x r => min x r.datetime_utc) a = r.datetime_utc := by
  induction t with
  | nil => intro a; exact Or.inl rfl
  | cons z zs ih =>
    intro a
    rw [List.foldl_cons]
    rcases ih (min a z.datetime_utc) with h | ⟨r, hr, he⟩
    · rcases min_cases a z.datetime_utc with ⟨hm, _⟩ | ⟨hm, _⟩
      · exact Or.inl (h.trans hm)
      · exact Or.inr ⟨z, List.mem_cons_self z zs, h.trans hm⟩
    · exact Or.inr ⟨r, List.mem_cons_of_mem z hr, he⟩

/-! ### Shape of the pipeline output -/

theorem mapE_ok_length {α β : Type} (f : α → Except String β) :
    ∀ (l : List α) (res : List β), mapE f l = Except.ok res → res.length = l.length := by
  intro l
  induction l with
  | nil =>
    intro res h
    injection h with h
    rw [← h]
    rfl
  | cons a as ih =>
    intro res h
    rw [mapE] at h
    split at h
    · exact absurd h (by simp)
    · split at h
      · exact absurd h (by simp)
      · rename_i b hb bs hbs
        injection h with h
        rw [← h, List.length_cons, List.length_cons, ih bs hbs]

theorem preprocess_ok_shape (sorter : List NormRow → List NormRow)
    (hs : sortValuesSpec sorter)
    (raw : List RawEvent) (off : Int → Int) (sh eh : Int) (df dfu : List NormRow)
    (hok : preprocess_and_unique raw off sorter sh eh = Except.ok (df, dfu)) :
    dfu = dedup sorter df := by
  cases raw with
  | nil =>
    simp only [preprocess_and_unique] at hok
    injection hok with h
    rw [Prod.mk.injEq] at h
    rw [← h.1, ← h.2]
    rw [dedup, List.Perm.eq_nil (hs []).1]
    rfl
  | cons e es =>
    simp only [preprocess_and_unique] at hok
    split at hok
    · exact absurd hok (by simp)
    · injection hok with h
      rw [Prod.mk.injEq] at h
      rw [← h.2, ← h.1]

/-- Every row surviving the first-contact step has a user id, whatever
the sorting behaviour. -/
theorem dedup_all_isSome (sorter : List NormRow → List NormRow) (df : List NormRow) :
    ∀ r ∈ dedup sorter df, r.user_id.isSome = true := by
  intro r hr
  have hsub := dedupFirst_sublist [] ((sorter df).filter fun q => q.user_id.isSome)
  have h2 : r ∈ (sorter df).filter (fun q => q.user_id.isSome) := hsub.subset hr
  have h3 := List.of_mem_filter h2
  exact h3

/-! ### Claim theorems for the dedup pipeline -/

/-- C2 counterexample: under the anti-stable behaviour — admitted by the
documented contract of the default (unstable) quicksort — two rows of the
same user with exactly equal timestamps are kept later-in-input first: the
pipeline keeps `rowS2`, the second row of the input, not `rowS1`. The
claimed earlier-in-input tie-breaking is therefore not a guarantee of the
code. -/
theorem preprocess_first_contact_cex :
    sortValuesSpec isortA ∧
    preprocess_and_unique [evS1, evS2] (fun _ => 0) isortA 9 18 =
      Except.ok ([rowS1, rowS2], [rowS2]) ∧
    rowS1.datetime_utc = rowS2.datetime_utc ∧
    rowS2 ≠ rowS1 := by
  refine ⟨sortValuesSpec_isortA, rfl, rfl, ?_⟩
  intro h
  have hu : (some (some 0) : Option (Option Int)) = none :=
    congrArg (fun r => r.raw.eventDateRaw) h
  exact absurd hu (by decide)

/-- C2 (amended): for every sorting behaviour satisfying the library
contract, the first-contact table drops null user ids and keeps, for each
user u, exactly one row when u occurs — one of u's rows achieving the
earliest `datetime_local` (an element of `minRows`); which of several
exactly-tied rows is kept is unspecified. -/
theorem preprocess_first_contact_spec (sorter : List NormRow → List NormRow)
    (hs : sortValuesSpec sorter) (raw : List RawEvent) (off : Int → Int)
    (start_h end_h : Int) (df dfu : List NormRow) (u : String)
    (hok : preprocess_and_unique raw off sorter start_h end_h = Except.ok (df, dfu)) :
    (dfu.all fun r => r.user_id.isSome) = true ∧
    List.Sublist (dfu.filter fun r => r.user_id == some u)
      (minRows (df.filter fun r => r.user_id == some u)) ∧
    (dfu.filter fun r => r.user_id == some u).length =
      min 1 (df.filter fun r => r.user_id == some u).length := by
  have hshape := preprocess_ok_shape sorter hs raw off start_h end_h df dfu hok
  subst hshape
  have hchain : (dedup sorter df).filter (fun r => r.user_id == some u) =
      ((sorter df).filter fun r => r.user_id == some u).take 1 := by
    show (dedupFirst [] ((sorter df).filter fun r => r.user_id.isSome)).filter _ = _
    rw [(dedupFirst_filter (some u) ((sorter df).filter fun r => r.user_id.isSome) []).2
        (List.not_mem_nil _),
      filter_isSome_user (sorter df) u]
  have hperm : List.Perm ((sorter df).filter fun r => r.user_id == some u)
      (df.filter fun r => r.user_id == some u) := (hs df).1.filter _
  have hsorted : SortedK ((sorter df).filter fun r => r.user_id == some u) :=
    List.Pairwise.filter _ (hs df).2
  refine ⟨?_, ?_, ?_⟩
  · rw [List.all_eq_true]
    intro r hr
    exact dedup_all_isSome sorter df r hr
  · rw [hchain]
    rcases hT : (sorter df).filter (fun r => r.user_id == some u) with _ | ⟨h, rest⟩
    · rw [hT] at hperm
      rw [hT, List.Perm.eq_nil hperm.symm]
      exact List.nil_sublist _
    · rw [hT] at hperm hsorted
      rw [hT]
      rw [SortedK, List.pairwise_cons] at hsorted
      have hmem : h ∈ df.filter fun r => r.user_id == some u :=
        hperm.subset (List.mem_cons_self h rest)
      have hmin : ∀ r ∈ df.filter (fun r => r.user_id == some u),
          h.datetime_utc ≤ r.datetime_utc := by
        intro r hr
        have hrT : r ∈ h :: rest := hperm.mem_iff.mpr hr
        rcases List.mem_cons.mp hrT with he | hm
        · exact le_of_eq (congrArg (fun r => r.datetime_utc) he.symm)
        · exact hsorted.1 r hm
      rcases hS : df.filter (fun r => r.user_id == some u) with _ | ⟨y, t⟩
      · rw [hS] at hmem
        exact absurd hmem (List.not_mem_nil h)
      · rw [hS] at hmem hmin
        rw [hS]
        have hm_le : ∀ r ∈ y :: t, minKeyD (y :: t) ≤ r.datetime_utc := by
          intro r hr
          rcases List.mem_cons.mp hr with he | hm2
          · exact he ▸ (foldl_min_le t y.datetime_utc).1
          · exact (foldl_min_le t y.datetime_utc).2 r hm2
        have hkey : h.datetime_utc = minKeyD (y :: t) := by
          rcases foldl_min_mem t y.datetime_utc with he | ⟨r, hr, he⟩
          · have h1 : h.datetime_utc ≤ minKeyD (y :: t) := by
              rw [minKeyD, he]
              exact hmin y (List.mem_cons_self y t)
            exact le_antisymm h1 (hm_le h hmem)
          · have h1 : h.datetime_utc ≤ minKeyD (y :: t) := by
              rw [minKeyD, he]
              exact hmin r (List.mem_cons_of_mem y hr)
            exact le_antisymm h1 (hm_le h hmem)
        show List.Sublist [h] (minRows (y :: t))
        rw [minRows]
        exact List.singleton_sublist.mpr
          (List.mem_filter.mpr ⟨hmem, beq_iff_eq.mpr hkey⟩)
  · rw [hchain]
    rcases hT : (sorter df).filter (fun r => r.user_id == some u) with _ | ⟨h, rest⟩
    · rw [hT] at hperm
      rw [hT, List.Perm.eq_nil hperm.symm]
      simp
    · rw [hT] at hperm
      rw [hT]
      have hlen := hperm.length_eq
      rw [List.length_cons] at hlen
      have h1n : 1 ≤ (df.filter fun r => r.user_id == some u).length := by omega
      rw [min_eq_left h1n]
      rfl

/-- Witness for C2 (amended): the spec's example — user u1 at 10:00 and
09:00, distinct timestamps — where the kept row is the unique earliest
one. -/
theorem preprocess_first_contact_spec_w :
    (([rowT2] : List NormRow).all fun r => r.user_id.isSome) = true ∧
    List.Sublist (([rowT2] : List NormRow).filter fun r => r.user_id == some "u1")
      (minRows (([rowT1, rowT2] : List NormRow).filter fun r => r.user_id == some "u1")) ∧
    (([rowT2] : List NormRow).filter fun r => r.user_id == some "u1").length =
      min 1 (([rowT1, rowT2] : List NormRow).filter fun r => r.user_id == some "u1").length :=
  preprocess_first_contact_spec isort sortValuesSpec_isort [evT1, evT2] (fun _ => 0)
    9 18 [rowT1, rowT2] [rowT2] "u1" rfl

/-- C8 counterexample: on a deduplicated table holding two distinct users
with exactly equal timestamps, re-running the dedup step under the
anti-stable behaviour — admitted by the unstable default sort's contract —
swaps the two rows, so the table is not exactly unchanged. -/
theorem dedup_idempotent_cex :
    sortValuesSpec isortA ∧
    dedup isortA (dedup isortA [rowK1, rowK2]) ≠ dedup isortA [rowK1, rowK2] := by
  refine ⟨sortValuesSpec_isortA, ?_⟩
  have h1 : dedup isortA [rowK1, rowK2] = [rowK2, rowK1] := rfl
  have h2 : dedup isortA [rowK2, rowK1] = [rowK1, rowK2] := rfl
  rw [h1, h2]
  intro h
  injection h with hh _
  have hu : (some "ua" : Option String) = some "ub" := congrArg NormRow.user_id hh
  exact absurd hu (by decide)

/-- C8 (amended): for every sorting behaviour satisfying the library
contract, re-running the first-contact step on its own output yields the
same rows — a permutation, with exactly one row per user_id — and exactly
the same table whenever the kept timestamps are pairwise distinct (ties
may be reordered by the unstable sort). -/
theorem dedup_idempotent (sorter : List NormRow → List NormRow)
    (hs : sortValuesSpec sorter) (l : List NormRow) :
    List.Perm (dedup sorter (dedup sorter l)) (dedup sorter l) ∧
    ((dedup sorter l).map fun r => r.user_id).Nodup ∧
    (((dedup sorter l).map fun r => r.datetime_utc).Nodup →
      dedup sorter (dedup sorter l) = dedup sorter l) := by
  have hsub := dedupFirst_sublist [] ((sorter l).filter fun r => r.user_id.isSome)
  have hd_sorted : SortedK (dedup sorter l) := by
    rw [SortedK]
    exact List.Pairwise.sublist hsub (List.Pairwise.filter _ (hs l).2)
  have hd_keys := dedupFirst_keys ((sorter l).filter fun r => r.user_id.isSome) []
  have hd_some : ∀ r ∈ dedup sorter l, r.user_id.isSome = true := dedup_all_isSome sorter l
  have hsp : List.Perm (sorter (dedup sorter l)) (dedup sorter l) := (hs _).1
  have hss : SortedK (sorter (dedup sorter l)) := (hs _).2
  have hs_some : ∀ r ∈ sorter (dedup sorter l), r.user_id.isSome = true :=
    fun r hr => hd_some r (hsp.subset hr)
  have hs_keys : ((sorter (dedup sorter l)).map fun r => r.user_id).Nodup :=
    ((hsp.map fun r => r.user_id).nodup_iff).mpr hd_keys.2
  have hdd : dedup sorter (dedup sorter l) = sorter (dedup sorter l) := by
    show dedupFirst [] ((sorter (dedup sorter l)).filter fun r => r.user_id.isSome) = _
    rw [List.filter_eq_self.mpr hs_some]
    exact dedupFirst_id _ [] (fun r _ => List.not_mem_nil _) hs_keys
  refine ⟨?_, hd_keys.2, ?_⟩
  · rw [hdd]
    exact hsp
  · intro hnd
    rw [hdd]
    exact eq_of_perm_sorted_nodupKeys (dedup sorter l) (sorter (dedup sorter l))
      hsp hss hd_sorted hnd

/-- Witness for C8 (amended), on a table whose two kept rows carry
distinct timestamps: the table is exactly unchanged. -/
theorem dedup_idempotent_w :
    List.Perm (dedup isort (dedup isort [rowT1, rowT2])) (dedup isort [rowT1, rowT2]) ∧
    ((dedup isort [rowT1, rowT2]).map fun r => r.user_id).Nodup ∧
    (((dedup isort [rowT1, rowT2]).map fun r => r.datetime_utc).Nodup →
      dedup isort (dedup isort [rowT1, rowT2]) = dedup isort [rowT1, rowT2]) :=
  dedup_idempotent isort sortValuesSpec_isort [rowT1, rowT2]

/-! ### The all-or-nothing timestamp fallback -/

theorem kept_map_fst (raw : List RawEvent) :
    (((raw.map (fun e => (e, e.storageDate))).filterMap
        (fun p => p.2.map (fun t => (p.1, t)))).map Prod.fst) =
      raw.filter (fun e => e.storageDate.isSome) := by
  induction raw with
  | nil => rfl
  | cons e es ih =>
    rcases hs : e.storageDate with _ | t
    · simp [List.filterMap_cons, hs, List.filter_cons, ih, -List.filterMap_map]
    · simp [List.filterMap_cons, hs, List.filter_cons, ih, -List.filterMap_map]

theorem zip_map_raw (off : Int → Int) (sh eh : Int) :
    ∀ (kept : List (RawEvent × Int)) (uids : List (Option String)),
      uids.length = kept.length →
      (((kept.zip uids).map (fun pu => mkRow off sh eh pu.1.1 pu.1.2 pu.2)).map
        (fun r => r.raw)) = kept.map Prod.fst := by
  intro kept
  induction kept with
  | nil => intro uids _; rfl
  | cons p ps ih =>
    intro uids hlen
    cases uids with
    | nil => simp at hlen
    | cons v vs =>
      simp only [List.zip_cons_cons, List.map_cons]
      rw [ih vs (by simpa using hlen)]
      rfl

/-- C10: whenever some record in the batch has a parseable storageDate,
the normalized table consists exactly of the records with parseable
storageDate — a record with only a parseable eventDate is dropped. -/
theorem storage_fallback_all_or_nothing (raw : List RawEvent) (off : Int → Int)
    (sorter : List NormRow → List NormRow) (start_h end_h : Int) (df dfu : List NormRow)
    (hany : (raw.any fun e => e.storageDate.isSome) = true)
    (hok : preprocess_and_unique raw off sorter start_h end_h = Except.ok (df, dfu)) :
    df.map (fun r => r.raw) = raw.filter (fun e => e.storageDate.isSome) := by
  cases raw with
  | nil => simp at hany
  | cons e es =>
    simp only [preprocess_and_unique] at hok
    have hall : ((e :: es).all fun x => x.storageDate.isNone) = false := by
      rcases List.any_eq_true.mp hany with ⟨x, hx, hxs⟩
      refine List.all_eq_false.mpr ⟨x, hx, ?_⟩
      rcases ho : x.storageDate with _ | v
      · rw [ho] at hxs; simp at hxs
      · simp
    rw [hall] at hok
    simp only [Bool.false_and, Bool.false_eq_true, if_false] at hok
    split at hok
    · exact absurd hok (by simp)
    · rename_i uids0 heq
      injection hok with h
      rw [Prod.mk.injEq] at h
      rw [← h.1]
      have hl0 : uids0.length =
          (((e :: es).map (fun x => (x, x.storageDate))).filterMap
            (fun p => p.2.map (fun t => (p.1, t)))).length := by
        by_cases hcc : ((e :: es).any fun x => x.contact.isSome) = true
        · rw [if_pos hcc] at heq
          exact mapE_ok_length _ _ _ heq
        · rw [if_neg hcc] at heq
          injection heq with h2
          rw [← h2, List.length_map]
      by_cases hc : ((uids0.all fun v => v.isNone) &&
          ((e :: es).any fun x => x.fromField.isSome)) = true
      · rw [if_pos hc, zip_map_raw off start_h end_h _ _ (by rw [List.length_map])]
        exact kept_map_fst (e :: es)
      · rw [if_neg hc, zip_map_raw off start_h end_h _ _ hl0]
        exact kept_map_fst (e :: es)

/-- Witness for C10: a batch holding one parseable storageDate and one
record with only a parseable eventDate keeps only the former. -/
theorem storage_fallback_all_or_nothing_w :
    ([rowA] : List NormRow).map (fun r => r.raw) =
      ([evA, evB] : List RawEvent).filter (fun e => e.storageDate.isSome) :=
  storage_fallback_all_or_nothing [evA, evB] (fun _ => 0) isort 9 18 [rowA] [] rfl rfl

/-! ### Rounding and the Inside/Outside summary -/

theorem roundHE_abs (q : ℚ) : |(roundHE q : ℚ) - q| ≤ 1 / 2 := by
  have h0 : (⌊q⌋ : ℚ) ≤ q := Int.floor_le q
  have h1 : q < ⌊q⌋ + 1 := Int.lt_floor_add_one q
  simp only [roundHE]
  split_ifs with hc1 hc2 hc3 <;>
    · rw [abs_le]
      constructor <;> push_cast <;> linarith

theorem round2_abs (q : ℚ) : |round2 q - q| ≤ 1 / 200 := by
  have h := roundHE_abs (q * 100)
  have he : round2 q - q = ((roundHE (q * 100) : ℚ) - q * 100) / 100 := by
    rw [round2]; ring
  rw [he, abs_div, abs_of_pos (show (0 : ℚ) < 100 by norm_num)]
  linarith

theorem count_partition (l : List NormRow)
    (hb : ∀ r ∈ l, r.horario_comercial = "Dentro" ∨ r.horario_comercial = "Fora") :
    dentroCount l + foraCount l = l.length := by
  induction l with
  | nil => rfl
  | cons r t ih =>
    have hr := hb r (List.mem_cons_self r t)
    have ih' := ih (fun x hx => hb x (List.mem_cons_of_mem r hx))
    rcases hr with h | h
    · have hd : (r.horario_comercial == "Dentro") = true := beq_iff_eq.mpr h
      have hf : (r.horario_comercial == "Fora") = false :=
        beq_eq_false_iff_ne.mpr (by rw [h]; decide)
      simp only [dentroCount, foraCount, List.filter_cons, hd, hf, if_true,
        Bool.false_eq_true, if_false, List.length_cons] at *
      omega
    · have hd : (r.horario_comercial == "Dentro") = false :=
        beq_eq_false_iff_ne.mpr (by rw [h]; decide)
      have hf : (r.horario_comercial == "Fora") = true := beq_iff_eq.mpr h
      simp only [dentroCount, foraCount, List.filter_cons, hd, hf, if_true,
        Bool.false_eq_true, if_false, List.length_cons] at *
      omega

/-- C7: on a non-empty first-contact table the summary lists exactly the
two buckets in the order [Dentro, Fora] (zero-filled when absent), the
bucket counts sum to the number of unique users, and the two rounded
percentages sum to 100 up to 0.01 of rounding error. -/
theorem summarize_resumo_spec (l : List NormRow) (hne : l ≠ [])
    (hb : ∀ r ∈ l, r.horario_comercial = "Dentro" ∨ r.horario_comercial = "Fora") :
    (summarize l).resumo =
      [("Dentro", dentroCount l, dentroPct l), ("Fora", foraCount l, foraPct l)] ∧
    (summarize l).total = l.length ∧
    dentroCount l + foraCount l = (summarize l).total ∧
    |dentroPct l + foraPct l - 100| ≤ 1 / 100 := by
  have hcnt := count_partition l hb
  have hlen : 0 < l.length := List.length_pos.mpr hne
  have hres : (summarize l).resumo =
      [("Dentro", dentroCount l, dentroPct l), ("Fora", foraCount l, foraPct l)] := by
    cases l with
    | nil => exact absurd rfl hne
    | cons r t => rfl
  have htot : (summarize l).total = l.length := by
    cases l with
    | nil => exact absurd rfl hne
    | cons r t => rfl
  refine ⟨hres, htot, by rw [htot]; exact hcnt, ?_⟩
  have hq : (dentroCount l : ℚ) + (foraCount l : ℚ) = (l.length : ℚ) := by
    exact_mod_cast congrArg (Nat.cast : ℕ → ℚ) hcnt
  have hn : (l.length : ℚ) ≠ 0 := by
    have : (0 : ℚ) < (l.length : ℚ) := by exact_mod_cast hlen
    exact ne_of_gt this
  have hxy : (dentroCount l : ℚ) / (l.length : ℚ) * 100 +
      (foraCount l : ℚ) / (l.length : ℚ) * 100 = 100 := by
    field_simp
    linarith
  have h1 := round2_abs ((dentroCount l : ℚ) / (l.length : ℚ) * 100)
  have h2 := round2_abs ((foraCount l : ℚ) / (l.length : ℚ) * 100)
  have hsplit : dentroPct l + foraPct l - 100 =
      (round2 ((dentroCount l : ℚ) / (l.length : ℚ) * 100) -
        (dentroCount l : ℚ) / (l.length : ℚ) * 100) +
      (round2 ((foraCount l : ℚ) / (l.length : ℚ) * 100) -
        (foraCount l : ℚ) / (l.length : ℚ) * 100) := by
    rw [dentroPct, foraPct]
    linarith
  rw [hsplit]
  calc |_ + _| ≤ _ + _ := abs_add _ _
    _ ≤ 1 / 200 + 1 / 200 := add_le_add h1 h2
    _ ≤ 1 / 100 := by norm_num

/-- Witness for C7 on three rows (two Inside, one Outside): percentages
66.67 and 33.33 sum to 100.00 exactly. -/
theorem summarize_resumo_spec_w :
    (summarize rowsC7).resumo =
      [("Dentro", dentroCount rowsC7, dentroPct rowsC7),
       ("Fora", foraCount rowsC7, foraPct rowsC7)] ∧
    (summarize rowsC7).total = rowsC7.length ∧
    dentroCount rowsC7 + foraCount rowsC7 = (summarize rowsC7).total ∧
    |dentroPct rowsC7 + foraPct rowsC7 - 100| ≤ 1 / 100 :=
  summarize_resumo_spec rowsC7 (by simp [rowsC7]) (by decide)

end DashCore
